import Mathlib

/-!
Verification development for the ai-blog semantic-search subsystem.

The definitions below are a shallow embedding of the TypeScript/JavaScript
sources of the repository:

* `src/db/semantic-search.ts` — `semanticSearch` (dimension check, per-chunk
  store query, per-document deduplication, excerpt derivation, sorting);
* `src/db/embeddings.ts` — `upsertEmbeddings`, `deleteDocumentEmbeddings`;
* `src/db/utils.ts` — `fnv1a32`;
* `public/embeddings-worker.js` (transformers v3 worker) and the v2 worker
  variant — message handlers, `ensurePipeline`, download-progress wrapper,
  `calculateTotalProgress`;
* the worker RPC client — pending map, timeout, message dispatch.

JavaScript numbers are modelled as `Nat`/`Int`/`ℚ` with exact arithmetic;
strings are modelled as `String`/`List Char` (one entry per code point).
`Math.round` on a nonnegative fraction `a / b` is `(2*a + b) / (2*b)` in
natural division.  Regex global replacement is modelled by fuel-indexed
scanners; each match consumes at least one character, so a fuel of
`length + 1` is always sufficient and the functions stay kernel-executable.
-/

namespace AiBlog

/-- Model of `Math.round(a / b)` for natural `a`, `b`: half-up rounding of the
fraction, computed as `floor((2a + b) / (2b))` with natural division. -/
def jsRoundDiv (a b : Nat) : Nat := (2 * a + b) / (2 * b)

/-- Characters matched by the JavaScript regex class `\s` (the subset relevant
to this code base: space, tab, line feed, carriage return, vertical tab, form
feed and no-break space). -/
def isJsWs (c : Char) : Bool :=
  c = ' ' || c = '\t' || c = '\n' || c = '\r' ||
  c = Char.ofNat 11 || c = Char.ofNat 12 || c = Char.ofNat 160

/-- The backtick character, written via its code point. -/
def backtick : Char := Char.ofNat 96

/-- Consume characters up to and including the first occurrence of `stop`;
`none` when `stop` does not occur.  Models the regex fragment
`[^stop]*stop`. -/
def splitAfter (stop : Char) : List Char → Option (List Char)
  | [] => none
  | c :: rest => if c = stop then some rest else splitAfter stop rest

/-- Like `splitAfter` but also returns the consumed prefix (the characters
before `stop`), modelling a capture group `([^stop]*)stop`. -/
def splitCapture (stop : Char) : List Char → Option (List Char × List Char)
  | [] => none
  | c :: rest =>
    if c = stop then some ([], rest)
    else (splitCapture stop rest).map (fun p => (c :: p.1, p.2))

/-- Match the tail of a Markdown link at a position just after `[`:
`([^\]]*)\]\([^)]*\)`.  Returns the captured link text and the rest of the
input after the closing parenthesis. -/
def matchLinkTail (l : List Char) : Option (List Char × List Char) :=
  match splitCapture ']' l with
  | some (txt, rest1) =>
    match rest1 with
    | c :: rest2 =>
      if c = '(' then (splitAfter ')' rest2).map (fun r => (txt, r)) else none
    | [] => none
  | none => none

/-- Replacement `/<[^>]*>/g → ' '` of `semantic-search.ts`: every HTML-like
tag becomes a single space. -/
def stripTags : Nat → List Char → List Char
  | 0, l => l
  | _ + 1, [] => []
  | fuel + 1, c :: rest =>
    if c = '<' then
      match splitAfter '>' rest with
      | some rest2 => ' ' :: stripTags fuel rest2
      | none => c :: stripTags fuel rest
    else c :: stripTags fuel rest

/-- Replacement `/!\[[^\]]*\]\([^)]*\)/g → ''`: image embeds are removed. -/
def stripImages : Nat → List Char → List Char
  | 0, l => l
  | _ + 1, [] => []
  | fuel + 1, c :: rest =>
    if c = '!' then
      match rest with
      | b :: rest1 =>
        if b = '[' then
          match matchLinkTail rest1 with
          | some (_, rest2) => stripImages fuel rest2
          | none => c :: stripImages fuel rest
        else c :: stripImages fuel rest
      | [] => [c]
    else c :: stripImages fuel rest

/-- Replacement `/\[([^\]]*)\]\([^)]*\)/g → '$1'`: links keep their visible
text. -/
def stripLinks : Nat → List Char → List Char
  | 0, l => l
  | _ + 1, [] => []
  | fuel + 1, c :: rest =>
    if c = '[' then
      match matchLinkTail rest with
      | some (txt, rest2) => txt ++ stripLinks fuel rest2
      | none => c :: stripLinks fuel rest
    else c :: stripLinks fuel rest

/-- Find the first occurrence of three consecutive backticks and drop
everything up to and including it (used for the lazy `[\s\S]*?` of the fenced
code-block regex). -/
def splitAfterFence : List Char → Option (List Char)
  | c1 :: c2 :: c3 :: rest =>
    if c1 = backtick && c2 = backtick && c3 = backtick then some rest
    else splitAfterFence (c2 :: c3 :: rest)
  | _ => none

/-- Replacement of fenced code blocks (three backticks, lazily up to the next
three backticks) by the empty string. -/
def stripFencedCode : Nat → List Char → List Char
  | 0, l => l
  | _ + 1, [] => []
  | fuel + 1, c :: rest =>
    if c = backtick then
      match rest with
      | c2 :: c3 :: rest3 =>
        if c2 = backtick && c3 = backtick then
          match splitAfterFence rest3 with
          | some rest4 => stripFencedCode fuel rest4
          | none => c :: stripFencedCode fuel rest
        else c :: stripFencedCode fuel rest
      | _ => c :: stripFencedCode fuel rest
    else c :: stripFencedCode fuel rest

/-- Replacement of inline code (backtick, non-backticks, backtick) by the
empty string. -/
def stripInlineCode : Nat → List Char → List Char
  | 0, l => l
  | _ + 1, [] => []
  | fuel + 1, c :: rest =>
    if c = backtick then
      match splitAfter backtick rest with
      | some rest2 => stripInlineCode fuel rest2
      | none => c :: stripInlineCode fuel rest
    else c :: stripInlineCode fuel rest

/-- Attempted match of `^#{1,6}\s+` at a line start.  Returns the rest of the
input after the match together with a flag telling whether the position after
the match is again a line start (the consumed whitespace run ended with a
newline). -/
def headingMatch (l : List Char) : Option (List Char × Bool) :=
  let hashes := l.takeWhile (fun c => c = '#')
  if 1 ≤ hashes.length && hashes.length ≤ 6 then
    let afterHash := l.drop hashes.length
    let ws := afterHash.takeWhile isJsWs
    if ws.isEmpty then none
    else some (afterHash.drop ws.length, ws.getLast? == some '\n')
  else none

/-- Attempted match of `^>\s*` at a line start (blockquote marker). -/
def bqMatch (l : List Char) : Option (List Char × Bool) :=
  match l with
  | c :: rest =>
    if c = '>' then
      let ws := rest.takeWhile isJsWs
      some (rest.drop ws.length,
        if ws.isEmpty then false else ws.getLast? == some '\n')
    else none
  | [] => none

/-- Attempted match of `^-{3,}$` at a line start (horizontal rule); the line
must consist of at least three hyphens followed by a newline or the end of
input, and the match leaves the newline in place. -/
def hrMatch (l : List Char) : Option (List Char × Bool) :=
  let dashes := l.takeWhile (fun c => c = '-')
  if 3 ≤ dashes.length then
    match l.drop dashes.length with
    | [] => some ([], false)
    | c :: rest => if c = '\n' then some (c :: rest, false) else none
  else none

/-- Attempted match of `^[\s]*[-*+]\s+` at a line start (list markers).  The
leading whitespace run is greedy and may cross newlines, exactly as `\s`
does. -/
def bulletMatch (l : List Char) : Option (List Char × Bool) :=
  let ws1 := l.takeWhile isJsWs
  match l.drop ws1.length with
  | c :: rest2 =>
    if c = '-' || c = '*' || c = '+' then
      let ws2 := rest2.takeWhile isJsWs
      if ws2.isEmpty then none
      else some (rest2.drop ws2.length, ws2.getLast? == some '\n')
    else none
  | [] => none

/-- Attempted match of `^[\s]*\d+\.\s+` at a line start (ordered-list
markers). -/
def numberedMatch (l : List Char) : Option (List Char × Bool) :=
  let ws1 := l.takeWhile isJsWs
  let rest1 := l.drop ws1.length
  let digits := rest1.takeWhile Char.isDigit
  if digits.isEmpty then none
  else
    match rest1.drop digits.length with
    | c :: rest2 =>
      if c = '.' then
        let ws2 := rest2.takeWhile isJsWs
        if ws2.isEmpty then none
        else some (rest2.drop ws2.length, ws2.getLast? == some '\n')
      else none
    | [] => none

/-- Driver for the `^`-anchored multiline replacements: at every line start
the given matcher is tried; on success its replacement is empty and scanning
resumes after the match, otherwise the character is copied.  The boolean
argument records whether the current position is a line start. -/
def lineScan (tryMatch : List Char → Option (List Char × Bool)) :
    Nat → Bool → List Char → List Char
  | 0, _, l => l
  | _ + 1, _, [] => []
  | fuel + 1, atStart, c :: rest =>
    if atStart then
      match tryMatch (c :: rest) with
      | some (rest2, nl) => lineScan tryMatch fuel nl rest2
      | none => c :: lineScan tryMatch fuel (c == '\n') rest
    else c :: lineScan tryMatch fuel (c == '\n') rest

/-- Find the closing two-character delimiter `dd` of the bold regex
`(\*\*|__)(.*?)\1` — lazily, and without crossing a newline (`.` does not
match newlines).  Returns the captured content and the rest after the
closing delimiter. -/
def findClose2 (d : Char) : List Char → Option (List Char × List Char)
  | c1 :: c2 :: rest =>
    if c1 = d && c2 = d then some ([], rest)
    else if c1 = '\n' then none
    else (findClose2 d (c2 :: rest)).map (fun p => (c1 :: p.1, p.2))
  | _ => none

/-- Find the closing one-character delimiter of the emphasis regex
`(\*|_)(.*?)\1`, lazily and without crossing a newline. -/
def findClose1 (d : Char) : List Char → Option (List Char × List Char)
  | c :: rest =>
    if c = d then some ([], rest)
    else if c = '\n' then none
    else (findClose1 d rest).map (fun p => (c :: p.1, p.2))
  | [] => none

/-- Replacement `/(\*\*|__)(.*?)\1/g → '$2'`: bold markers are dropped, the
content is kept. -/
def stripBold : Nat → List Char → List Char
  | 0, l => l
  | _ + 1, [] => []
  | fuel + 1, c :: rest =>
    if c = '*' || c = '_' then
      match rest with
      | c2 :: rest2 =>
        if c2 = c then
          match findClose2 c rest2 with
          | some (content, rest3) => content ++ stripBold fuel rest3
          | none => c :: stripBold fuel rest
        else c :: stripBold fuel rest
      | [] => [c]
    else c :: stripBold fuel rest

/-- Replacement `/(\*|_)(.*?)\1/g → '$2'`: emphasis markers are dropped, the
content is kept. -/
def stripItalic : Nat → List Char → List Char
  | 0, l => l
  | _ + 1, [] => []
  | fuel + 1, c :: rest =>
    if c = '*' || c = '_' then
      match findClose1 c rest with
      | some (content, rest2) => content ++ stripItalic fuel rest2
      | none => c :: stripItalic fuel rest
    else c :: stripItalic fuel rest

/-- Replacement `/\s+/g → ' '`: every maximal whitespace run becomes one
space.  The boolean argument records whether the previous character belonged
to a whitespace run. -/
def collapseWsAux : Bool → List Char → List Char
  | _, [] => []
  | prevWs, c :: rest =>
    if isJsWs c then
      if prevWs then collapseWsAux true rest
      else ' ' :: collapseWsAux true rest
    else c :: collapseWsAux false rest

/-- Whitespace collapsing of the excerpt chain. -/
def collapseWs (l : List Char) : List Char := collapseWsAux false l

/-- Model of `String.prototype.trim`: strip leading and trailing
whitespace. -/
def trimChars (l : List Char) : List Char :=
  ((l.dropWhile isJsWs).reverse.dropWhile isJsWs).reverse

/-- The full normalization chain applied to `rawMarkdown` inside
`semanticSearch`, in source order: tags, images, links, fenced code, inline
code, headings, bold, emphasis, blockquotes, horizontal rules, unordered
list markers, ordered list markers, whitespace collapse, trim. -/
def normalizedChars (s : String) : List Char :=
  let l0 := s.toList
  let f := l0.length + 1
  trimChars (collapseWs (
    lineScan numberedMatch f true (
    lineScan bulletMatch f true (
    lineScan hrMatch f true (
    lineScan bqMatch f true (
    stripItalic f (
    stripBold f (
    lineScan headingMatch f true (
    stripInlineCode f (
    stripFencedCode f (
    stripLinks f (
    stripImages f (
    stripTags f l0)))))))))))))

/-- The normalized text as a string. -/
def normalizedTextOf (s : String) : String := String.mk (normalizedChars s)

/-- The three-character ellipsis appended to truncated excerpts. -/
def ellipsisChars : List Char := ['.', '.', '.']

/-- Model of `normalizedText.slice(0, 180) + (normalizedText.length > 180 ?
'...' : '')`. -/
def excerptChars (s : String) : List Char :=
  (normalizedChars s).take 180 ++
    (if 180 < (normalizedChars s).length then ellipsisChars else [])

/-- The excerpt derived from a raw Markdown field. -/
def excerptOf (s : String) : String := String.mk (excerptChars s)

/-- Modelled from the spec: `EMBEDDING_DIMENSIONS` lives in `src/db/schema.ts`,
which is not part of the provided sources; the spec and the doc comment of
`semanticSearch` fix the deployment dimension at 384. -/
def EMBEDDING_DIMENSIONS : Nat := 384

/-- One row of the raw result set of the vector-store query in
`semanticSearch`: the joined document columns plus the cosine distance of the
chunk to the query vector (the SQL projection turns the distance `d` into the
similarity `1 - d`). -/
structure SSRow where
  id : String
  title : String
  slug : String
  rawMarkdown : String
  createdAt : Int
  distance : ℚ
deriving DecidableEq

/-- The `SemanticSearchResult` interface of `semantic-search.ts`. -/
structure SemanticSearchResult where
  id : String
  title : String
  slug : String
  excerpt : String
  similarity : ℚ
  createdAt : Int
deriving DecidableEq

/-- Errors thrown by `semanticSearch` before touching the store. -/
inductive SearchError where
  | dimensionMismatch (expected received : Nat)
deriving DecidableEq

/-- The `SemanticSearchResult` built for one raw row inside the
deduplication loop (similarity `1 - distance`, excerpt derived from the raw
Markdown). -/
def mkResult (row : SSRow) : SemanticSearchResult :=
  { id := row.id
    title := row.title
    slug := row.slug
    excerpt := excerptOf row.rawMarkdown
    similarity := 1 - row.distance
    createdAt := row.createdAt }

/-- Model of `docMap.get(row.id)` on a JavaScript `Map` represented as an
insertion-ordered association list. -/
def docMapGet (m : List SemanticSearchResult) (id : String) :
    Option SemanticSearchResult :=
  m.find? (fun v => v.id == id)

/-- Model of `docMap.set(row.id, value)`: replace in place when the key is
present, append otherwise. -/
def docMapSet (m : List SemanticSearchResult) (v : SemanticSearchResult) :
    List SemanticSearchResult :=
  if m.any (fun x => x.id == v.id) then
    m.map (fun x => if x.id == v.id then v else x)
  else m ++ [v]

/-- One iteration of the deduplication loop of `semanticSearch`: keep the
entry of highest similarity per document identifier (`row.similarity >
existing.similarity` overwrites). -/
def dedupStep (m : List SemanticSearchResult) (row : SSRow) :
    List SemanticSearchResult :=
  match docMapGet m row.id with
  | none => docMapSet m (mkResult row)
  | some existing =>
    if existing.similarity < 1 - row.distance then docMapSet m (mkResult row)
    else m

/-- The whole deduplication loop over the raw result set. -/
def dedupFold (rows : List SSRow) : List SemanticSearchResult :=
  rows.foldl dedupStep []

/-- The comparator of the final `sort((a, b) => b.similarity - a.similarity)`:
descending similarity. -/
def simDescBy (a b : SemanticSearchResult) : Prop :=
  b.similarity ≤ a.similarity

instance : DecidableRel simDescBy := fun a b =>
  inferInstanceAs (Decidable (b.similarity ≤ a.similarity))

instance : IsTotal SemanticSearchResult simDescBy :=
  ⟨fun a b => le_total b.similarity a.similarity⟩

instance : IsTrans SemanticSearchResult simDescBy :=
  ⟨fun _ _ _ hab hbc => le_trans hbc hab⟩

/-- Model of `semanticSearch`.  The vector store is abstracted as a function
from query vector and limit to the raw per-chunk result set.  The second
component counts the store queries performed, so that the error path can be
seen to make none. -/
def semanticSearch (store : List ℚ → Nat → List SSRow) (queryEmbedding : List ℚ)
    (limit : Nat := 10) :
    Except SearchError (List SemanticSearchResult) × Nat :=
  if queryEmbedding.length ≠ EMBEDDING_DIMENSIONS then
    (Except.error
      (SearchError.dimensionMismatch EMBEDDING_DIMENSIONS queryEmbedding.length),
     0)
  else
    let results := store queryEmbedding limit
    (Except.ok (List.insertionSort simDescBy (dedupFold results)), 1)

/-! ### Worker message handling (`embed` branch) -/

/-- JavaScript values as far as the worker payload validation observes
them. -/
inductive JVal where
  | str (s : String)
  | num (n : Int)
  | bool (b : Bool)
  | arr (elems : List JVal)
  | undef

/-- Worker-side errors relevant to the `embed` branch. -/
inductive WErr where
  | invalidInput
deriving DecidableEq

/-- Observable events of one `embed` request, in emission order: the
`ensurePipeline` call (a model load or cache hit), the per-text `running`
progress messages, and the terminal response. -/
inductive WOut where
  | modelLoad
  | progress (index total : Nat) (percent : Nat)
  | response (ok : Bool) (embeddings : Option (List (List ℚ))) (error : Option WErr)
deriving DecidableEq

/-- The percentage posted before embedding text `i` of `n`:
`Math.round(((i + 1) / texts.length) * 100)`. -/
def runPercent (i n : Nat) : Nat := jsRoundDiv (100 * (i + 1)) n

/-- The `running` progress events of the embed loop, in order. -/
def embedProgressEvents (n : Nat) : List WOut :=
  (List.range n).map (fun i => WOut.progress i n (runPercent i n))

/-- The `embed` branch of the worker message listener, with the embedding
pipeline abstracted as a pure function.  The validation is exactly the
source check `!Array.isArray(texts) || texts.length === 0`. -/
def embedBranch (pipe : JVal → List ℚ) (texts : JVal) : List WOut :=
  match texts with
  | JVal.arr elems =>
    if elems.length == 0 then
      [WOut.response false none (some WErr.invalidInput)]
    else
      WOut.modelLoad ::
        (embedProgressEvents elems.length ++
          [WOut.response true (some (elems.map pipe)) none])
  | _ => [WOut.response false none (some WErr.invalidInput)]

/-- Stub pipeline of the concrete scenario: `"hola" ↦ [1, 0]`, anything else
`↦ [0, 1]`. -/
def stubPipe : JVal → List ℚ
  | JVal.str "hola" => [1, 0]
  | _ => [0, 1]

/-! ### `ensurePipeline` and the fetch-interception state -/

/-- Values the network-fetch slot can hold: the environment's own fetch, or a
progress-reporting wrapper around a previous value. -/
inductive FetchVal where
  | base
  | wrapped (prev : FetchVal)
deriving DecidableEq

/-- Model of `device || 'wasm'` (the empty string is the only falsy
string). -/
def jsStringOr (s d : String) : String := if s = "" then d else s

/-- Worker state of the v2 worker variant (`@xenova/transformers`), which
monkey-patches `globalThis.fetch`. -/
structure WorkerStateA where
  pipelineLoaded : Bool
  configModelId : Option String
  configDevice : Option String
  fetchFn : FetchVal
deriving DecidableEq

/-- Model of `ensurePipeline` of the v2 worker: on a cache hit nothing
changes; otherwise `globalThis.fetch` is saved, wrapped, and restored both
when `pipeline(...)` resolves and when it throws (the `try`/`catch` at the
end of the function).  The library load itself is abstracted by
`loadSucceeds`. -/
def ensurePipelineA (st : WorkerStateA) (modelId device : String)
    (loadSucceeds : Bool) : WorkerStateA × Bool :=
  if st.pipelineLoaded && st.configModelId == some modelId &&
      st.configDevice == some device then
    (st, true)
  else
    let originalFetch := st.fetchFn
    let stWrapped := { st with fetchFn := FetchVal.wrapped originalFetch }
    let resolvedDevice := jsStringOr device "wasm"
    if loadSucceeds then
      ({ stWrapped with
          pipelineLoaded := true
          configModelId := some modelId
          configDevice := some resolvedDevice
          fetchFn := originalFetch }, true)
    else
      ({ stWrapped with fetchFn := originalFetch }, false)

/-- Worker state of the v3 worker (`public/embeddings-worker.js`), which
assigns a wrapper to the library slot `env.fetch` (`none` models the unset
slot, in which case the wrapper falls back to the global fetch). -/
structure WorkerStateB where
  pipelineLoaded : Bool
  configModelId : Option String
  configDevice : Option String
  envFetch : Option FetchVal
deriving DecidableEq

/-- Model of `ensurePipeline` of the v3 worker: `env.fetch` is replaced by a
wrapper over `env.fetch || fetch` and is never reassigned afterwards, on
neither the success nor the failure path. -/
def ensurePipelineB (st : WorkerStateB) (modelId device : String)
    (loadSucceeds : Bool) : WorkerStateB × Bool :=
  if st.pipelineLoaded && st.configModelId == some modelId &&
      st.configDevice == some device then
    (st, true)
  else
    let baseFetch := st.envFetch.getD FetchVal.base
    let stWrapped := { st with envFetch := some (FetchVal.wrapped baseFetch) }
    let resolvedDevice := jsStringOr device "wasm"
    if loadSucceeds then
      ({ stWrapped with
          pipelineLoaded := true
          configModelId := some modelId
          configDevice := some resolvedDevice }, true)
    else
      (stWrapped, false)

/-! ### Download-progress accounting -/

/-- Per-file byte counters of the v2 worker's `downloadTracker`. -/
structure DownloadInfo where
  loaded : Nat
  total : Nat
deriving DecidableEq

/-- Model of `calculateTotalProgress` of the v2 worker: `null` when no file is
tracked or the total is zero, otherwise
`min(99, round(100 * sum(loaded) / sum(total)))`. -/
def calculateTotalProgress (tracker : List (String × DownloadInfo)) :
    Option Nat :=
  if tracker.length == 0 then none
  else
    let totalBytes := (tracker.map (fun p => p.2.total)).sum
    let loadedBytes := (tracker.map (fun p => p.2.loaded)).sum
    if totalBytes == 0 then none
    else some (min 99 (jsRoundDiv (100 * loadedBytes) totalBytes))

/-- Percent values reported by the streaming fetch wrapper of the v3 worker
for one asset file with content length `total`, given the byte sizes of the
chunks the reader yields: each chunk reports
`min(99, round((loaded / total) * 100))`, and the final `done` step reports
100. -/
def chunkReports (total : Nat) : Nat → List Nat → List Nat
  | _, [] => [100]
  | loaded, c :: rest =>
    min 99 (jsRoundDiv (100 * (loaded + c)) total) ::
      chunkReports total (loaded + c) rest

/-- Percent values of a whole v3 model load consisting of one streamed asset
file: the wrapper reports, then on success the final `Modelo listo` report
with percent 100. -/
def loadTraceB (total : Nat) (chunks : List Nat) (loadSucceeds : Bool) :
    List Nat :=
  chunkReports total 0 chunks ++ (if loadSucceeds then [100] else [])

/-! ### Worker RPC client -/

/-- A pending entry of the RPC client (the resolver functions are modelled by
the emitted `ClientAction`s; the stored data is the configured timeout). -/
structure PendingEntry where
  timeoutMs : Nat
deriving DecidableEq

/-- Messages arriving on the worker channel, after the
`isWorkerMessage` shape check: well-formed responses and progress messages
carry a request identifier, anything else is `malformed`. -/
inductive ClientMsg where
  | response (requestId : String) (ok : Bool) (result : Option JVal)
      (error : Option JVal)
  | progress (requestId : String) (payload : JVal)
  | malformed

/-- Reasons a call's promise settles. -/
inductive RejectReason where
  | workerError (error : Option JVal)
  | timeout
  | disposed

/-- Externally observable effect of one client step. -/
inductive ClientAction where
  | noop
  | resolve (requestId : String) (result : Option JVal)
  | reject (requestId : String) (reason : RejectReason)
  | progressCb (requestId : String) (payload : JVal)

/-- The pending map, insertion ordered. -/
def Pending := List (String × PendingEntry)

/-- Model of `pending.delete(requestId)`. -/
def pendingDelete (pending : List (String × PendingEntry)) (requestId : String) :
    List (String × PendingEntry) :=
  pending.filter (fun p => p.1 != requestId)

/-- Model of `pending.get(requestId)`. -/
def pendingGet (pending : List (String × PendingEntry)) (requestId : String) :
    Option PendingEntry :=
  (pending.find? (fun p => p.1 == requestId)).map (fun p => p.2)

/-- The default call timeout: `opts?.timeoutMs ?? 60_000`. -/
def callTimeoutMs (optsTimeoutMs : Option Nat) : Nat :=
  optsTimeoutMs.getD 60000

/-- The timer callback installed by `call`: remove the entry from the pending
set and reject the promise with a timeout error. -/
def timeoutFire (pending : List (String × PendingEntry)) (requestId : String) :
    List (String × PendingEntry) × ClientAction :=
  (pendingDelete pending requestId,
   ClientAction.reject requestId RejectReason.timeout)

/-- The `onMessage` listener of the RPC client: malformed messages and
messages whose identifier has no pending entry are ignored; progress messages
invoke the callback and keep the entry; responses clear the entry and settle
the promise according to `ok`. -/
def onMessage (pending : List (String × PendingEntry)) (msg : ClientMsg) :
    List (String × PendingEntry) × ClientAction :=
  match msg with
  | ClientMsg.malformed => (pending, ClientAction.noop)
  | ClientMsg.progress rid payload =>
    match pendingGet pending rid with
    | none => (pending, ClientAction.noop)
    | some _ => (pending, ClientAction.progressCb rid payload)
  | ClientMsg.response rid ok result error =>
    match pendingGet pending rid with
    | none => (pending, ClientAction.noop)
    | some _ =>
      (pendingDelete pending rid,
       if ok then ClientAction.resolve rid result
       else ClientAction.reject rid (RejectReason.workerError error))

/-! ### Embedding ingestion (`embeddings.ts`) -/

/-- One FNV-1a step: `hash ^= code; hash = Math.imul(hash, 0x01000193)`,
kept as the unsigned 32-bit value. -/
def fnv1a32Step (hash code : Nat) : Nat :=
  (Nat.xor hash code) * 0x01000193 % 4294967296

/-- The 32-bit FNV-1a hash of a string as a natural number (characters enter
via their code points, matching `charCodeAt` on the basic plane). -/
def fnv1a32Nat (s : String) : Nat :=
  s.toList.foldl (fun h c => fnv1a32Step h c.toNat) 0x811c9dc5

/-- Lower-case hexadecimal digit. -/
def hexDigit (n : Nat) : Char :=
  if n < 10 then Char.ofNat (48 + n) else Char.ofNat (87 + n)

/-- Model of `toString(16).padStart(8, '0')` for values below `2^32`. -/
def toHex8 (n : Nat) : String :=
  String.mk ((List.range 8).map (fun i => hexDigit (n / 16 ^ (7 - i) % 16)))

/-- The function `fnv1a32` of `src/db/utils.ts`. -/
def fnv1a32 (s : String) : String := toHex8 (fnv1a32Nat s)

/-- The `EmbeddingItem` interface (optional pooling and normalize
fields). -/
structure EmbeddingItem where
  chunkIndex : Int
  chunkText : String
  embedding : List ℚ
  modelId : String
  device : String
  pooling : Option String
  normalize : Option Bool
deriving DecidableEq

/-- One stored row of the `document_embeddings` table, as written by
`upsertEmbeddings` (`normalize` is stored as the integer 1 or 0). -/
structure EmbRow where
  documentId : String
  chunkIndex : Int
  chunkText : String
  modelId : String
  device : String
  pooling : String
  normalize : Nat
  contentHash : String
  embedding : List ℚ
deriving DecidableEq

/-- The conflict target `(documentId, chunkIndex, modelId, device)`. -/
def rowKey (r : EmbRow) : String × Int × String × String :=
  (r.documentId, r.chunkIndex, r.modelId, r.device)

/-- The conflict key an item will occupy. -/
def itemKey (documentId : String) (it : EmbeddingItem) :
    String × Int × String × String :=
  (documentId, it.chunkIndex, it.modelId, it.device)

/-- The row value built for one item in `upsertEmbeddings`:
`pooling: it.pooling ?? 'mean'` and `normalize: it.normalize ?? true ? 1 : 0`
(the nullish coalescing binds tighter than the conditional), plus the
recomputed content hash. -/
def mkRow (documentId : String) (it : EmbeddingItem) : EmbRow :=
  { documentId := documentId
    chunkIndex := it.chunkIndex
    chunkText := it.chunkText
    modelId := it.modelId
    device := it.device
    pooling := it.pooling.getD "mean"
    normalize := if it.normalize.getD true then 1 else 0
    contentHash := fnv1a32 it.chunkText
    embedding := it.embedding }

/-- The `ON CONFLICT DO UPDATE SET` assignment: chunk text, pooling,
normalize, content hash and vector are overwritten from the excluded row. -/
def conflictUpdate (x r : EmbRow) : EmbRow :=
  { x with
      chunkText := r.chunkText
      pooling := r.pooling
      normalize := r.normalize
      contentHash := r.contentHash
      embedding := r.embedding }

/-- Upsert of a single value row against the table: update the rows of equal
conflict key in place, insert at the end otherwise. -/
def upsertRow (table : List EmbRow) (r : EmbRow) : List EmbRow :=
  if table.any (fun x => decide (rowKey x = rowKey r)) then
    table.map (fun x => if rowKey x = rowKey r then conflictUpdate x r else x)
  else table ++ [r]

/-- The `UpsertEmbeddingsInput` interface. -/
structure UpsertEmbeddingsInput where
  documentId : String
  items : List EmbeddingItem

/-- Model of `upsertEmbeddings`: map every item to its value row, upsert them
in order, and return the new table together with `values.length`. -/
def upsertEmbeddings (input : UpsertEmbeddingsInput) (table : List EmbRow) :
    List EmbRow × Nat :=
  let values := input.items.map (mkRow input.documentId)
  (values.foldl upsertRow table, values.length)

/-- Model of `deleteDocumentEmbeddings`. -/
def deleteDocumentEmbeddings (documentId : String) (table : List EmbRow) :
    List EmbRow :=
  table.filter (fun r => r.documentId != documentId)

/-! ### Auxiliary predicates used by the theorems -/

/-- Invariant of the deduplication loop after processing the rows `p`: the
accumulated map has pairwise distinct document identifiers, every entry is
the result built from some processed row and dominates the similarity of
every processed row of its document, and every processed row has an entry
for its document. -/
def DedupInv (p : List SSRow) (m : List SemanticSearchResult) : Prop :=
  m.Pairwise (fun a b => a.id ≠ b.id) ∧
  (∀ v ∈ m, ∃ row ∈ p, v = mkResult row ∧
    ∀ row2 ∈ p, row2.id = v.id → 1 - row2.distance ≤ v.similarity) ∧
  (∀ row ∈ p, ∃ v ∈ m, v.id = row.id)

/-- No two adjacent spaces. -/
def noDouble (a b : Char) : Prop := ¬(a = ' ' ∧ b = ' ')

/-- Concrete ingestion item with both optional fields omitted (used by the
witnesses). -/
def itemW : EmbeddingItem :=
  { chunkIndex := 0
    chunkText := ""
    embedding := []
    modelId := "m"
    device := "wasm"
    pooling := none
    normalize := none }

/-! ## Theorems -/

/-- C3: for every query vector whose length differs from the fixed embedding
dimension, `semanticSearch` fails with a `DimensionMismatch` error carrying
the expected and received lengths, and performs zero store calls. -/
theorem semanticSearch_dimension_mismatch (store : List ℚ → Nat → List SSRow)
    (q : List ℚ) (limit : Nat) (h : q.length ≠ EMBEDDING_DIMENSIONS) :
    semanticSearch store q limit =
      (Except.error
        (SearchError.dimensionMismatch EMBEDDING_DIMENSIONS q.length), 0) := by
  simp [semanticSearch, h]

theorem semanticSearch_dimension_mismatch_witness :
    (([] : List ℚ).length ≠ EMBEDDING_DIMENSIONS) ∧
    semanticSearch (fun _ _ => []) ([] : List ℚ) 10 =
      (Except.error (SearchError.dimensionMismatch EMBEDDING_DIMENSIONS 0), 0) :=
  ⟨by decide, semanticSearch_dimension_mismatch (fun _ _ => []) [] 10 (by decide)⟩

/-- C4 (amended): the v2 worker variant restores `globalThis.fetch` after
every `ensurePipeline` call, whether the model load succeeds or throws and
whether the pipeline was cached or not. -/
theorem ensurePipelineA_fetch_restored (st : WorkerStateA)
    (modelId device : String) (loadSucceeds : Bool) :
    ((ensurePipelineA st modelId device loadSucceeds).1).fetchFn = st.fetchFn := by
  unfold ensurePipelineA
  split
  · rfl
  · cases loadSucceeds <;> rfl

/-- C4 counterexample: in the v3 worker (`public/embeddings-worker.js`) the
wrapper installed on `env.fetch` during a model load survives the load, both
on the success path and on the failure path — the fetch mechanism is not
restored to its unintercepted state. -/
theorem ensurePipelineB_fetch_leak :
    (ensurePipelineB ⟨false, none, none, none⟩
        "Xenova/multilingual-e5-large" "wasm" true).1.envFetch =
      some (FetchVal.wrapped FetchVal.base) ∧
    (ensurePipelineB ⟨false, none, none, none⟩
        "Xenova/multilingual-e5-large" "wasm" true).1.envFetch ≠
      (⟨false, none, none, none⟩ : WorkerStateB).envFetch ∧
    (ensurePipelineB ⟨false, none, none, none⟩
        "Xenova/multilingual-e5-large" "wasm" false).1.envFetch =
      some (FetchVal.wrapped FetchVal.base) :=
  ⟨rfl, by decide, rfl⟩

theorem pendingGet_delete_self (pending : List (String × PendingEntry))
    (rid : String) :
    pendingGet (pendingDelete pending rid) rid = none := by
  unfold pendingGet pendingDelete
  have h : (pending.filter (fun p => p.1 != rid)).find?
      (fun p => p.1 == rid) = none := by
    rw [List.find?_eq_none]
    intro p hp
    have h2 := (List.mem_filter.mp hp).2
    simpa using h2
  rw [h]
  rfl

/-- C5: firing the timeout of a pending call removes the call from the
pending set and rejects it with a timeout error; a terminal response (or a
progress message) arriving afterwards finds no pending entry and leaves the
state unchanged with no action; the default timeout is 60,000 ms. -/
theorem rpcClient_timeout_spec (pending : List (String × PendingEntry))
    (rid : String) (ok : Bool) (result error : Option JVal) :
    (timeoutFire pending rid).2 =
      ClientAction.reject rid RejectReason.timeout ∧
    pendingGet (timeoutFire pending rid).1 rid = none ∧
    onMessage (timeoutFire pending rid).1 (ClientMsg.response rid ok result error) =
      ((timeoutFire pending rid).1, ClientAction.noop) ∧
    onMessage (timeoutFire pending rid).1 (ClientMsg.progress rid JVal.undef) =
      ((timeoutFire pending rid).1, ClientAction.noop) ∧
    callTimeoutMs none = 60000 := by
  refine ⟨rfl, pendingGet_delete_self pending rid, ?_, ?_, rfl⟩
  · show onMessage (pendingDelete pending rid) _ = _
    simp only [onMessage, pendingGet_delete_self pending rid]
    rfl
  · show onMessage (pendingDelete pending rid) _ = _
    simp only [onMessage, pendingGet_delete_self pending rid]
    rfl

/-- C2: for every non-empty list of texts, the `embed` branch loads the
model, then emits one `running` progress event per text in input order with
percent `round(100 * (i + 1) / n)`, and its terminal response carries one
embedding per text in input order; in the concrete scenario with the stub
pipeline on `["hola", "mundo"]` the trace is exactly two progress events at
50 % and 100 % followed by the response `[[1, 0], [0, 1]]`. -/
theorem embedBranch_spec (pipe : JVal → List ℚ) (ts : List String)
    (h : ts ≠ []) :
    embedBranch pipe (JVal.arr (ts.map JVal.str)) =
      WOut.modelLoad ::
        (embedProgressEvents ts.length ++
          [WOut.response true (some ((ts.map JVal.str).map pipe)) none]) ∧
    ((ts.map JVal.str).map pipe).length = ts.length ∧
    embedProgressEvents ts.length =
      (List.range ts.length).map
        (fun i => WOut.progress i ts.length (jsRoundDiv (100 * (i + 1)) ts.length)) ∧
    embedBranch stubPipe (JVal.arr [JVal.str "hola", JVal.str "mundo"]) =
      [WOut.modelLoad, WOut.progress 0 2 50, WOut.progress 1 2 100,
       WOut.response true (some [[1, 0], [0, 1]]) none] := by
  have h0 : ts.length ≠ 0 := fun hh => h (List.length_eq_zero.mp hh)
  refine ⟨?_, by simp, rfl, by decide⟩
  simp [embedBranch, h0]

theorem embedBranch_spec_witness :
    ((["hola", "mundo"] : List String) ≠ []) ∧
    (embedBranch stubPipe (JVal.arr [JVal.str "hola", JVal.str "mundo"]) =
        WOut.modelLoad ::
          (embedProgressEvents 2 ++
            [WOut.response true (some [[1, 0], [0, 1]]) none]) ∧
      ([[1, 0], [0, 1]] : List (List ℚ)).length = 2 ∧
      embedProgressEvents 2 =
        (List.range 2).map
          (fun i => WOut.progress i 2 (jsRoundDiv (100 * (i + 1)) 2)) ∧
      embedBranch stubPipe (JVal.arr [JVal.str "hola", JVal.str "mundo"]) =
        [WOut.modelLoad, WOut.progress 0 2 50, WOut.progress 1 2 100,
         WOut.response true (some [[1, 0], [0, 1]]) none]) :=
  ⟨by decide, embedBranch_spec stubPipe ["hola", "mundo"] (by decide)⟩

/-- C6 (amended): the `embed` branch replies with an `InvalidInput` error
immediately — in particular without invoking `ensurePipeline` and without
computing any embedding — exactly when the texts payload is not an array or
is an empty array. -/
theorem embedBranch_invalid_input (pipe : JVal → List ℚ) (texts : JVal)
    (h : (∀ elems : List JVal, texts ≠ JVal.arr elems) ∨ texts = JVal.arr []) :
    embedBranch pipe texts =
      [WOut.response false none (some WErr.invalidInput)] ∧
    WOut.modelLoad ∉ embedBranch pipe texts := by
  have heq : embedBranch pipe texts =
      [WOut.response false none (some WErr.invalidInput)] := by
    rcases h with h1 | h2
    · cases texts with
      | arr elems => exact absurd rfl (h1 elems)
      | str s => rfl
      | num n => rfl
      | bool b => rfl
      | undef => rfl
    · subst h2; rfl
  refine ⟨heq, ?_⟩
  rw [heq]
  simp

theorem embedBranch_invalid_input_witness :
    ((∀ elems : List JVal, JVal.arr [] ≠ JVal.arr elems) ∨
      (JVal.arr [] : JVal) = JVal.arr []) ∧
    (embedBranch (fun _ => []) (JVal.arr []) =
        [WOut.response false none (some WErr.invalidInput)] ∧
      WOut.modelLoad ∉ embedBranch (fun _ => []) (JVal.arr [])) :=
  ⟨Or.inr rfl,
   embedBranch_invalid_input (fun _ => []) (JVal.arr []) (Or.inr rfl)⟩

/-- C6 counterexample: a non-empty array whose element is not a string — so
the payload is not a sequence of strings — is accepted by the validation: the
worker does not reply `InvalidInput` and does invoke the model load, so
partial work is performed. -/
theorem embedBranch_invalid_input_counterexample :
    (∀ ss : List String, JVal.arr [JVal.num 7] ≠ JVal.arr (ss.map JVal.str)) ∧
    WOut.modelLoad ∈ embedBranch (fun _ => []) (JVal.arr [JVal.num 7]) ∧
    embedBranch (fun _ => []) (JVal.arr [JVal.num 7]) ≠
      [WOut.response false none (some WErr.invalidInput)] := by
  refine ⟨?_, by decide, by decide⟩
  intro ss hss
  cases ss with
  | nil => simp at hss
  | cons a as => simp at hss

/-- C10: after upserting a single item, the stored row at the item's conflict
key has pooling `'mean'` when the pooling field was omitted (the given value
otherwise), and normalize `1` unless normalize was explicitly `false` (then
`0`); these defaults are computed before writing, so they hold whether the
row was inserted or installed by the conflict update. -/
theorem upsertEmbeddings_defaults (documentId : String) (it : EmbeddingItem)
    (table : List EmbRow) (x : EmbRow)
    (hx : x ∈ (upsertEmbeddings ⟨documentId, [it]⟩ table).1)
    (hk : rowKey x = itemKey documentId it) :
    x.pooling = (match it.pooling with | none => "mean" | some p => p) ∧
    x.normalize = (match it.normalize with | some false => 0 | _ => 1) := by
  have hmk : rowKey (mkRow documentId it) = itemKey documentId it := rfl
  have hx2 : x ∈ upsertRow table (mkRow documentId it) := hx
  have hgoal : x = conflictUpdate x (mkRow documentId it) ∨
      x = mkRow documentId it := by
    unfold upsertRow at hx2
    split at hx2
    · obtain ⟨y, hy, hfy⟩ := List.mem_map.mp hx2
      by_cases hkey : rowKey y = rowKey (mkRow documentId it)
      · rw [if_pos hkey] at hfy
        left
        subst hfy
        rfl
      · rw [if_neg hkey] at hfy
        subst hfy
        exact absurd (hk.trans hmk.symm) hkey
    · rcases List.mem_append.mp hx2 with hin | hone
      · rename_i hany
        rw [List.any_eq_true] at hany
        exact absurd ⟨x, hin, by simp [hk.trans hmk.symm]⟩ hany
      · right
        simpa using hone
  have hp : (mkRow documentId it).pooling = it.pooling.getD "mean" := rfl
  have hn : (mkRow documentId it).normalize =
      (if it.normalize.getD true then 1 else 0) := rfl
  have hxmk : x.pooling = (mkRow documentId it).pooling ∧
      x.normalize = (mkRow documentId it).normalize := by
    rcases hgoal with hcu | hmk2
    · rw [hcu]
      exact ⟨rfl, rfl⟩
    · rw [hmk2]
      exact ⟨rfl, rfl⟩
  rw [hxmk.1, hxmk.2, hp, hn]
  constructor
  · rcases hpool : it.pooling with _ | pl <;> simp [hpool]
  · rcases hnorm : it.normalize with _ | b
    · simp [hnorm]
    · cases b <;> simp [hnorm]

theorem upsertEmbeddings_defaults_witness :
    (mkRow "doc" itemW ∈ (upsertEmbeddings ⟨"doc", [itemW]⟩ []).1) ∧
    (rowKey (mkRow "doc" itemW) = itemKey "doc" itemW) ∧
    ((mkRow "doc" itemW).pooling = "mean" ∧ (mkRow "doc" itemW).normalize = 1) :=
  ⟨List.mem_singleton.mpr rfl, rfl,
   upsertEmbeddings_defaults "doc" itemW [] (mkRow "doc" itemW)
     (List.mem_singleton.mpr rfl) rfl⟩

theorem calculateTotalProgress_le_99 (tracker : List (String × DownloadInfo))
    (p : Nat) (h : calculateTotalProgress tracker = some p) : p ≤ 99 := by
  simp only [calculateTotalProgress] at h
  split at h
  · exact absurd h (by simp)
  · split at h
    · exact absurd h (by simp)
    · obtain rfl := Option.some.inj h
      exact min_le_left _ _

theorem chunkReports_shape (total : Nat) (chunks : List Nat) :
    ∀ loaded, ∃ l2, chunkReports total loaded chunks = l2 ++ [100] ∧
      ∀ x ∈ l2, x ≤ 99 := by
  induction chunks with
  | nil => exact fun loaded => ⟨[], rfl, by simp⟩
  | cons c rest ih =>
    intro loaded
    obtain ⟨l2, hl, hb⟩ := ih (loaded + c)
    refine ⟨min 99 (jsRoundDiv (100 * (loaded + c)) total) :: l2, ?_, ?_⟩
    · rw [chunkReports, hl]
      rfl
    · intro x hx
      rcases List.mem_cons.mp hx with rfl | hx2
      · exact min_le_left _ _
      · exact hb x hx2

/-- C8 (amended): every chunk-progress percentage reported while an asset
file streams is capped at 99 — in the v2 worker by `calculateTotalProgress`,
which aggregates `min(99, round(100 * sum(loaded) / sum(total)))` over all
tracked files, in the v3 worker per file — and a percentage of 100 is
reported when a file's stream completes and again when the load completes,
so 100 can be reported more than once. -/
theorem downloadProgress_cap_spec (tracker : List (String × DownloadInfo))
    (p : Nat) (hp : calculateTotalProgress tracker = some p)
    (total loaded : Nat) (chunks : List Nat) :
    p ≤ 99 ∧
    (∀ x ∈ (chunkReports total loaded chunks).dropLast, x ≤ 99) ∧
    (chunkReports total loaded chunks).getLast? = some 100 ∧
    (loadTraceB 10 [10] true).count 100 = 2 := by
  obtain ⟨l2, hl, hb⟩ := chunkReports_shape total chunks loaded
  refine ⟨calculateTotalProgress_le_99 tracker p hp, ?_, ?_, by decide⟩
  · intro x hx
    rw [hl, List.dropLast_concat] at hx
    exact hb x hx
  · rw [hl, List.getLast?_concat]

theorem downloadProgress_cap_spec_witness :
    (calculateTotalProgress [("model.onnx", ⟨5, 10⟩)] = some 50) ∧
    (50 ≤ 99 ∧
      (∀ x ∈ (chunkReports 10 0 [5, 5]).dropLast, x ≤ 99) ∧
      (chunkReports 10 0 [5, 5]).getLast? = some 100 ∧
      (loadTraceB 10 [10] true).count 100 = 2) :=
  ⟨by decide, downloadProgress_cap_spec [("model.onnx", ⟨5, 10⟩)] 50 (by decide)
    10 0 [5, 5]⟩

/-- C8 counterexample: a v3 load of a single 10-byte asset streamed in one
chunk reports the percentages `[99, 100, 100]` — a 100 is reported when the
file's stream completes, before the load is declared complete, and 100 is
reported twice rather than exactly once. -/
theorem downloadProgress_counterexample :
    loadTraceB 10 [10] true = [99, 100, 100] ∧
    (loadTraceB 10 [10] true).count 100 = 2 := by
  decide

theorem conflictUpdate_eq_of_key (x r : EmbRow) (h : rowKey x = rowKey r) :
    conflictUpdate x r = r := by
  cases x
  cases r
  simp only [rowKey, Prod.mk.injEq] at h
  obtain ⟨h1, h2, h3, h4⟩ := h
  subst h1
  subst h2
  subst h3
  subst h4
  rfl

theorem rowKey_conflictUpdate (x r : EmbRow) :
    rowKey (conflictUpdate x r) = rowKey x := rfl

theorem upsertRow_pairwise (table : List EmbRow) (r : EmbRow)
    (h : table.Pairwise (fun a b => rowKey a ≠ rowKey b)) :
    (upsertRow table r).Pairwise (fun a b => rowKey a ≠ rowKey b) := by
  unfold upsertRow
  split
  · rw [List.pairwise_map]
    have hf : ∀ x : EmbRow,
        rowKey (if rowKey x = rowKey r then conflictUpdate x r else x) =
          rowKey x := by
      intro x
      split
      · exact rowKey_conflictUpdate x r
      · rfl
    exact h.imp (fun hab => by rw [hf, hf]; exact hab)
  · rename_i hany
    rw [List.pairwise_append]
    refine ⟨h, List.pairwise_singleton _ _, ?_⟩
    intro a ha b hb
    rw [List.mem_singleton] at hb
    subst hb
    intro hcontra
    exact hany (List.any_eq_true.mpr ⟨a, ha, by simp [hcontra]⟩)

theorem upsertRow_map_filter (r : EmbRow) (table : List EmbRow)
    (hpw : table.Pairwise (fun a b => rowKey a ≠ rowKey b))
    (hex : ∃ x0 ∈ table, rowKey x0 = rowKey r) :
    ((table.map (fun x => if rowKey x = rowKey r then conflictUpdate x r else x)).filter
      (fun x => decide (rowKey x = rowKey r))) = [r] := by
  induction table with
  | nil => simp at hex
  | cons a tl ih =>
    have hpa := List.pairwise_cons.mp hpw
    by_cases ha : rowKey a = rowKey r
    · have hfa : (if rowKey a = rowKey r then conflictUpdate a r else a) = r := by
        rw [if_pos ha]
        exact conflictUpdate_eq_of_key a r ha
      have htl : ((tl.map (fun x =>
          if rowKey x = rowKey r then conflictUpdate x r else x)).filter
            (fun x => decide (rowKey x = rowKey r))) = [] := by
        rw [List.filter_eq_nil_iff]
        intro y hy
        obtain ⟨b, hb, hfb⟩ := List.mem_map.mp hy
        have hkb : rowKey b ≠ rowKey r := by
          intro hcontra
          exact (hpa.1 b hb) (ha.trans hcontra.symm)
        subst hfb
        simp [if_neg hkb, hkb]
      rw [List.map_cons, hfa, List.filter_cons]
      simp [htl]
    · have hex2 : ∃ x0 ∈ tl, rowKey x0 = rowKey r := by
        obtain ⟨x0, hx0, hk0⟩ := hex
        rcases List.mem_cons.mp hx0 with rfl | hx0tl
        · exact absurd hk0 ha
        · exact ⟨x0, hx0tl, hk0⟩
      rw [List.map_cons, List.filter_cons, if_neg ha]
      simp only [ha, decide_False]
      exact ih hpa.2 hex2

theorem upsertRow_filter_self (table : List EmbRow) (r : EmbRow)
    (h : table.Pairwise (fun a b => rowKey a ≠ rowKey b)) :
    ((upsertRow table r).filter (fun x => decide (rowKey x = rowKey r))) = [r] := by
  unfold upsertRow
  split
  · rename_i hany
    rw [List.any_eq_true] at hany
    obtain ⟨x0, hx0, hk0⟩ := hany
    exact upsertRow_map_filter r table h ⟨x0, hx0, of_decide_eq_true hk0⟩
  · rename_i hany
    rw [List.filter_append]
    have h1 : table.filter (fun x => decide (rowKey x = rowKey r)) = [] := by
      rw [List.filter_eq_nil_iff]
      intro a ha
      simp only [decide_eq_true_eq]
      intro hcontra
      exact hany (List.any_eq_true.mpr ⟨a, ha, decide_eq_true hcontra⟩)
    rw [h1]
    simp

/-- C9: upserting an item twice under the same conflict key
`(documentId, chunkIndex, modelId, device)` with the same chunk text into a
table with unique keys leaves exactly one stored row for that key, namely
the row of the second call with its vector and freshly recomputed content
hash, and each call returns the number of items it was given (here 1). -/
theorem upsertEmbeddings_idempotent (table : List EmbRow) (documentId : String)
    (it1 it2 : EmbeddingItem)
    (huniq : table.Pairwise (fun a b => rowKey a ≠ rowKey b))
    (_hkey : itemKey documentId it1 = itemKey documentId it2)
    (_htext : it1.chunkText = it2.chunkText) :
    (upsertEmbeddings ⟨documentId, [it1]⟩ table).2 = 1 ∧
    (upsertEmbeddings ⟨documentId, [it2]⟩
        (upsertEmbeddings ⟨documentId, [it1]⟩ table).1).2 = 1 ∧
    ((upsertEmbeddings ⟨documentId, [it2]⟩
        (upsertEmbeddings ⟨documentId, [it1]⟩ table).1).1.filter
      (fun x => decide (rowKey x = itemKey documentId it2))) =
      [mkRow documentId it2] ∧
    (mkRow documentId it2).embedding = it2.embedding ∧
    (mkRow documentId it2).contentHash = fnv1a32 it2.chunkText := by
  have hpw1 := upsertRow_pairwise table (mkRow documentId it1) huniq
  refine ⟨rfl, rfl, ?_, rfl, rfl⟩
  exact upsertRow_filter_self (upsertRow table (mkRow documentId it1))
    (mkRow documentId it2) hpw1

theorem upsertEmbeddings_idempotent_witness :
    (([] : List EmbRow).Pairwise (fun a b => rowKey a ≠ rowKey b) ∧
      itemKey "doc" itemW = itemKey "doc" itemW ∧
      itemW.chunkText = itemW.chunkText) ∧
    ((upsertEmbeddings ⟨"doc", [itemW]⟩ []).2 = 1 ∧
      (upsertEmbeddings ⟨"doc", [itemW]⟩
          (upsertEmbeddings ⟨"doc", [itemW]⟩ []).1).2 = 1 ∧
      ((upsertEmbeddings ⟨"doc", [itemW]⟩
          (upsertEmbeddings ⟨"doc", [itemW]⟩ []).1).1.filter
        (fun x => decide (rowKey x = itemKey "doc" itemW))) =
        [mkRow "doc" itemW] ∧
      (mkRow "doc" itemW).embedding = itemW.embedding ∧
      (mkRow "doc" itemW).contentHash = fnv1a32 itemW.chunkText) :=
  ⟨⟨List.Pairwise.nil, rfl, rfl⟩,
   upsertEmbeddings_idempotent [] "doc" itemW itemW List.Pairwise.nil rfl rfl⟩

theorem mkResult_id (row : SSRow) : (mkResult row).id = row.id := rfl

theorem mkResult_similarity (row : SSRow) :
    (mkResult row).similarity = 1 - row.distance := rfl

theorem pairwise_id_unique {m : List SemanticSearchResult}
    (h : m.Pairwise (fun a b => a.id ≠ b.id)) :
    ∀ a ∈ m, ∀ b ∈ m, a.id = b.id → a = b := by
  induction m with
  | nil => intro a ha; cases ha
  | cons x tl ih =>
    have hx := List.pairwise_cons.mp h
    intro a ha b hb hab
    rcases List.mem_cons.mp ha with rfl | ha2
    · rcases List.mem_cons.mp hb with rfl | hb2
      · rfl
      · exact absurd hab (hx.1 b hb2)
    · rcases List.mem_cons.mp hb with rfl | hb2
      · exact absurd hab.symm (hx.1 a ha2)
      · exact ih hx.2 a ha2 b hb2 hab

theorem docMapGet_eq_none {m : List SemanticSearchResult} {id : String}
    (h : docMapGet m id = none) : ∀ v ∈ m, v.id ≠ id := by
  intro v hv
  unfold docMapGet at h
  rw [List.find?_eq_none] at h
  simpa using h v hv

theorem docMapGet_eq_some {m : List SemanticSearchResult} {id : String}
    {ex : SemanticSearchResult} (h : docMapGet m id = some ex) :
    ex ∈ m ∧ ex.id = id := by
  unfold docMapGet at h
  exact ⟨List.mem_of_find?_eq_some h, by simpa using List.find?_some h⟩

theorem docMapSet_of_not_mem {m : List SemanticSearchResult}
    {v : SemanticSearchResult} (h : ∀ x ∈ m, x.id ≠ v.id) :
    docMapSet m v = m ++ [v] := by
  unfold docMapSet
  rw [if_neg]
  intro hc
  rw [List.any_eq_true] at hc
  obtain ⟨x, hx, hbeq⟩ := hc
  exact h x hx (by simpa using hbeq)

theorem docMapSet_of_mem {m : List SemanticSearchResult}
    {v : SemanticSearchResult} (h : ∃ x ∈ m, x.id = v.id) :
    docMapSet m v = m.map (fun x => if x.id == v.id then v else x) := by
  unfold docMapSet
  obtain ⟨x, hx, hid⟩ := h
  rw [if_pos (List.any_eq_true.mpr ⟨x, hx, by simp [hid]⟩)]

theorem dedupStep_inv (p : List SSRow) (m : List SemanticSearchResult)
    (row : SSRow) (h : DedupInv p m) :
    DedupInv (p ++ [row]) (dedupStep m row) := by
  obtain ⟨hpw, hmem, hcov⟩ := h
  rcases hget : docMapGet m row.id with _ | ex
  · -- no entry for this document yet: append
    have hne : ∀ v ∈ m, v.id ≠ row.id := docMapGet_eq_none hget
    have hstep : dedupStep m row = m ++ [mkResult row] := by
      unfold dedupStep
      rw [hget, docMapSet_of_not_mem (fun x hx => hne x hx)]
    rw [hstep]
    refine ⟨?_, ?_, ?_⟩
    · rw [List.pairwise_append]
      refine ⟨hpw, List.pairwise_singleton _ _, ?_⟩
      intro a ha b hb
      rw [List.mem_singleton] at hb
      subst hb
      exact hne a ha
    · intro v hv
      rcases List.mem_append.mp hv with hvm | hvr
      · obtain ⟨r0, hr0, hveq, hbound⟩ := hmem v hvm
        refine ⟨r0, List.mem_append_left _ hr0, hveq, ?_⟩
        intro row2 hrow2 hid2
        rcases List.mem_append.mp hrow2 with h2p | h2r
        · exact hbound row2 h2p hid2
        · rw [List.mem_singleton] at h2r
          subst h2r
          exact absurd hid2.symm (hne v hvm)
      · rw [List.mem_singleton] at hvr
        subst hvr
        refine ⟨row, List.mem_append_right _ (List.mem_singleton_self row), rfl, ?_⟩
        intro row2 hrow2 hid2
        rcases List.mem_append.mp hrow2 with h2p | h2r
        · obtain ⟨v0, hv0, hid0⟩ := hcov row2 h2p
          rw [mkResult_id] at hid2
          exact absurd (hid0.trans hid2) (hne v0 hv0)
        · rw [List.mem_singleton] at h2r
          subst h2r
          rw [mkResult_similarity]
    · intro r0 hr0
      rcases List.mem_append.mp hr0 with hrp | hrr
      · obtain ⟨v0, hv0, hid0⟩ := hcov r0 hrp
        exact ⟨v0, List.mem_append_left _ hv0, hid0⟩
      · rw [List.mem_singleton] at hrr
        subst hrr
        exact ⟨mkResult r0, List.mem_append_right _ (List.mem_singleton_self _),
          mkResult_id r0⟩
  · -- an entry exists
    obtain ⟨hexm, hexid⟩ := docMapGet_eq_some hget
    by_cases hlt : ex.similarity < 1 - row.distance
    · -- the new chunk wins: overwrite in place
      have hstep : dedupStep m row =
          m.map (fun x => if x.id == (mkResult row).id then mkResult row else x) := by
        unfold dedupStep
        rw [hget]
        show (if ex.similarity < 1 - row.distance then docMapSet m (mkResult row)
          else m) = _
        rw [if_pos hlt, docMapSet_of_mem ⟨ex, hexm, hexid⟩]
      rw [hstep]
      have hfid : ∀ x : SemanticSearchResult,
          ((fun x : SemanticSearchResult =>
            if x.id == (mkResult row).id then mkResult row else x) x).id = x.id := by
        intro x
        by_cases hx : x.id = (mkResult row).id
        · simp only [hx, beq_self_eq_true, if_true]
        · simp [hx]
      refine ⟨?_, ?_, ?_⟩
      · rw [List.pairwise_map]
        exact hpw.imp (fun hab => by rw [hfid, hfid]; exact hab)
      · intro v hv
        obtain ⟨x, hx, hfx⟩ := List.mem_map.mp hv
        by_cases hxid : x.id = (mkResult row).id
        · have hveq : v = mkResult row := by
            rw [← hfx]
            simp [hxid]
          rw [hveq]
          refine ⟨row, List.mem_append_right _ (List.mem_singleton_self row), rfl, ?_⟩
          intro row2 hrow2 hid2
          rcases List.mem_append.mp hrow2 with h2p | h2r
          · obtain ⟨rex, hrex, hexeq, hexbound⟩ := hmem ex hexm
            have hid2ex : row2.id = ex.id := by
              rw [hid2, mkResult_id, ← hexid]
            have hb := hexbound row2 h2p hid2ex
            rw [mkResult_similarity]
            exact le_of_lt (lt_of_le_of_lt hb hlt)
          · rw [List.mem_singleton] at h2r
            subst h2r
            rw [mkResult_similarity]
        · have hveq : v = x := by
            rw [← hfx]
            simp [hxid]
          obtain ⟨r0, hr0, hveq2, hbound⟩ := hmem x hx
          refine ⟨r0, List.mem_append_left _ hr0, hveq.trans hveq2, ?_⟩
          intro row2 hrow2 hid2
          have hid2x : row2.id = x.id := by rw [hid2, hveq]
          rcases List.mem_append.mp hrow2 with h2p | h2r
          · rw [hveq]
            exact hbound row2 h2p hid2x
          · rw [List.mem_singleton] at h2r
            rw [h2r] at hid2x
            exact absurd (hid2x.symm.trans (mkResult_id row).symm) hxid
      · intro r0 hr0
        rcases List.mem_append.mp hr0 with hrp | hrr
        · obtain ⟨v0, hv0, hid0⟩ := hcov r0 hrp
          refine ⟨_, List.mem_map_of_mem _ hv0, ?_⟩
          rw [hfid v0]
          exact hid0
        · rw [List.mem_singleton] at hrr
          subst hrr
          refine ⟨mkResult r0, List.mem_map.mpr ⟨ex, hexm, ?_⟩, mkResult_id r0⟩
          simp [hexid, mkResult_id]
    · -- the stored chunk stays
      have hstep : dedupStep m row = m := by
        unfold dedupStep
        rw [hget]
        show (if ex.similarity < 1 - row.distance then docMapSet m (mkResult row)
          else m) = _
        rw [if_neg hlt]
      rw [hstep]
      refine ⟨hpw, ?_, ?_⟩
      · intro v hv
        obtain ⟨r0, hr0, hveq, hbound⟩ := hmem v hv
        refine ⟨r0, List.mem_append_left _ hr0, hveq, ?_⟩
        intro row2 hrow2 hid2
        rcases List.mem_append.mp hrow2 with h2p | h2r
        · exact hbound row2 h2p hid2
        · rw [List.mem_singleton] at h2r
          subst h2r
          have hvex : v = ex :=
            pairwise_id_unique hpw v hv ex hexm (hid2.symm.trans hexid.symm)
          rw [hvex]
          exact not_lt.mp hlt
      · intro r0 hr0
        rcases List.mem_append.mp hr0 with hrp | hrr
        · exact hcov r0 hrp
        · rw [List.mem_singleton] at hrr
          subst hrr
          exact ⟨ex, hexm, hexid⟩

theorem dedupFold_inv (rows : List SSRow) : DedupInv rows (dedupFold rows) := by
  have hgen : ∀ (rs : List SSRow) (p : List SSRow) (m : List SemanticSearchResult),
      DedupInv p m → DedupInv (p ++ rs) (rs.foldl dedupStep m) := by
    intro rs
    induction rs with
    | nil => intro p m h; simpa using h
    | cons r rest ih =>
      intro p m h
      have h3 := ih (p ++ [r]) (dedupStep m r) (dedupStep_inv p m r h)
      simpa [List.append_assoc] using h3
  have h0 : DedupInv [] [] := ⟨List.Pairwise.nil, by simp, by simp⟩
  simpa using hgen rows [] [] h0

/-- C1: for every query vector of the correct dimension and every store
result set, `semanticSearch` succeeds with a list holding at most one entry
per document identifier, sorted by descending similarity; every entry is the
result built from a raw row of its document with similarity
`1 - cosine distance`, it dominates the similarity of every raw row of the
same document (the best chunk is kept), and every raw row's document is
represented. -/
theorem semanticSearch_ranking_spec (store : List ℚ → Nat → List SSRow)
    (q : List ℚ) (limit : Nat) (hdim : q.length = EMBEDDING_DIMENSIONS) :
    ∃ res : List SemanticSearchResult,
      (semanticSearch store q limit).1 = Except.ok res ∧
      res.Pairwise (fun a b => a.id ≠ b.id) ∧
      res.Pairwise (fun a b => b.similarity ≤ a.similarity) ∧
      (∀ v ∈ res, ∃ row ∈ store q limit, v = mkResult row ∧
        v.similarity = 1 - row.distance ∧
        ∀ row2 ∈ store q limit, row2.id = v.id →
          1 - row2.distance ≤ v.similarity) ∧
      (∀ row ∈ store q limit, ∃ v ∈ res, v.id = row.id) := by
  obtain ⟨hpw, hmem, hcov⟩ := dedupFold_inv (store q limit)
  have hperm := List.perm_insertionSort simDescBy (dedupFold (store q limit))
  have hok : (semanticSearch store q limit).1 =
      Except.ok (List.insertionSort simDescBy (dedupFold (store q limit))) := by
    simp [semanticSearch, hdim]
  refine ⟨_, hok, ?_, ?_, ?_, ?_⟩
  · exact (hperm.pairwise_iff (fun hab => Ne.symm hab)).mpr hpw
  · exact List.sorted_insertionSort simDescBy (dedupFold (store q limit))
  · intro v hv
    obtain ⟨r0, hr0, hveq, hbound⟩ := hmem v (hperm.subset hv)
    exact ⟨r0, hr0, hveq, by rw [hveq, mkResult_similarity], hbound⟩
  · intro row hrow
    obtain ⟨v, hv, hid⟩ := hcov row hrow
    exact ⟨v, hperm.symm.subset hv, hid⟩

theorem semanticSearch_ranking_spec_witness :
    ((List.replicate 384 (0 : ℚ)).length = EMBEDDING_DIMENSIONS) ∧
    (∃ res : List SemanticSearchResult,
      (semanticSearch (fun _ _ => []) (List.replicate 384 (0 : ℚ)) 10).1 =
        Except.ok res ∧
      res.Pairwise (fun a b => a.id ≠ b.id) ∧
      res.Pairwise (fun a b => b.similarity ≤ a.similarity) ∧
      (∀ v ∈ res, ∃ row ∈ ([] : List SSRow), v = mkResult row ∧
        v.similarity = 1 - row.distance ∧
        ∀ row2 ∈ ([] : List SSRow), row2.id = v.id →
          1 - row2.distance ≤ v.similarity) ∧
      (∀ row ∈ ([] : List SSRow), ∃ v ∈ res, v.id = row.id)) :=
  ⟨List.length_replicate 384 0,
   semanticSearch_ranking_spec (fun _ _ => []) (List.replicate 384 (0 : ℚ)) 10
     (List.length_replicate 384 0)⟩

theorem collapseWsAux_ws_only (l : List Char) :
    ∀ b : Bool, ∀ c ∈ collapseWsAux b l, isJsWs c = true → c = ' ' := by
  induction l with
  | nil =>
    intro b c hc
    simp [collapseWsAux] at hc
  | cons a rest ih =>
    intro b c hc hws
    by_cases ha : isJsWs a
    · cases b
      · rw [collapseWsAux, if_pos ha, if_neg (by simp)] at hc
        rcases List.mem_cons.mp hc with rfl | hc2
        · rfl
        · exact ih true c hc2 hws
      · rw [collapseWsAux, if_pos ha, if_pos rfl] at hc
        exact ih true c hc hws
    · rw [collapseWsAux, if_neg ha] at hc
      rcases List.mem_cons.mp hc with rfl | hc2
      · exact absurd hws (by simp [ha])
      · exact ih false c hc2 hws

theorem collapseWsAux_head_true (l : List Char) :
    ∀ c, (collapseWsAux true l).head? = some c → isJsWs c = false := by
  induction l with
  | nil =>
    intro c h
    simp [collapseWsAux] at h
  | cons a rest ih =>
    intro c h
    by_cases ha : isJsWs a
    · rw [collapseWsAux, if_pos ha, if_pos rfl] at h
      exact ih c h
    · rw [collapseWsAux, if_neg ha, List.head?_cons] at h
      obtain rfl := Option.some.inj h
      simpa using ha

theorem collapseWsAux_chain (l : List Char) :
    ∀ b : Bool, List.Chain' noDouble (collapseWsAux b l) := by
  induction l with
  | nil =>
    intro b
    simp [collapseWsAux]
  | cons a rest ih =>
    intro b
    by_cases ha : isJsWs a
    · cases b
      · rw [collapseWsAux, if_pos ha, if_neg (by simp)]
        rw [List.chain'_cons']
        refine ⟨?_, ih true⟩
        intro y hy hcontra
        have hyws := collapseWsAux_head_true rest y hy
        obtain ⟨_, hy2⟩ := hcontra
        rw [hy2] at hyws
        simp [isJsWs] at hyws
      · rw [collapseWsAux, if_pos ha, if_pos rfl]
        exact ih true
    · rw [collapseWsAux, if_neg ha]
      rw [List.chain'_cons']
      refine ⟨?_, ih false⟩
      intro y hy hcontra
      obtain ⟨ha2, _⟩ := hcontra
      rw [ha2] at ha
      simp [isJsWs] at ha

theorem chain_dropWhile {R : Char → Char → Prop} {l : List Char}
    (h : List.Chain' R l) (p : Char → Bool) :
    List.Chain' R (l.dropWhile p) := by
  obtain ⟨t, ht⟩ := List.dropWhile_suffix (l := l) p
  rw [← ht] at h
  exact (List.chain'_append.mp h).2.1

theorem noDouble_symm (a b : Char) (h : noDouble a b) : noDouble b a :=
  fun hc => h ⟨hc.2, hc.1⟩

theorem chain_reverse_noDouble {l : List Char}
    (h : List.Chain' noDouble l) : List.Chain' noDouble l.reverse := by
  rw [List.chain'_reverse]
  exact h.imp (fun a b hab => noDouble_symm a b hab)

theorem trimChars_chain {l : List Char} (h : List.Chain' noDouble l) :
    List.Chain' noDouble (trimChars l) := by
  unfold trimChars
  exact chain_reverse_noDouble
    (chain_dropWhile (chain_reverse_noDouble (chain_dropWhile h isJsWs)) isJsWs)

theorem trimChars_subset (l : List Char) : trimChars l ⊆ l := by
  unfold trimChars
  intro c hc
  rw [List.mem_reverse] at hc
  have hc2 := (List.dropWhile_suffix isJsWs).subset hc
  rw [List.mem_reverse] at hc2
  exact (List.dropWhile_suffix isJsWs).subset hc2

theorem normalizedChars_repr (s : String) :
    ∃ X : List Char, normalizedChars s = trimChars (collapseWs X) :=
  ⟨_, rfl⟩

/-- C7: semantic search never fails on account of a document's raw content —
it succeeds and gives each retained document the excerpt derived from its raw
Markdown; an empty raw content yields an empty excerpt; for content whose
normalized text fits in 180 characters the excerpt is that text unchanged,
otherwise it is the 180-character prefix with an appended ellipsis (hence at
most 183 characters); and the normalized text has collapsed whitespace: every
whitespace character in it is a plain space and no two spaces are
adjacent. -/
theorem semanticSearch_excerpt_spec (store : List ℚ → Nat → List SSRow)
    (q : List ℚ) (limit : Nat) (hdim : q.length = EMBEDDING_DIMENSIONS) :
    (∃ res, (semanticSearch store q limit).1 = Except.ok res ∧
      ∀ v ∈ res, ∃ row ∈ store q limit,
        v.excerpt = excerptOf row.rawMarkdown) ∧
    excerptOf "" = "" ∧
    (∀ s : String, (normalizedChars s).length ≤ 180 →
      excerptOf s = normalizedTextOf s) ∧
    (∀ s : String, 180 < (normalizedChars s).length →
      excerptOf s = String.mk ((normalizedChars s).take 180 ++ ellipsisChars)) ∧
    (∀ s : String, (excerptChars s).length ≤ 183) ∧
    (∀ s : String, ∀ c ∈ normalizedChars s, isJsWs c = true → c = ' ') ∧
    (∀ s : String, List.Chain' noDouble (normalizedChars s)) := by
  refine ⟨?_, by decide, ?_, ?_, ?_, ?_, ?_⟩
  · have hok : (semanticSearch store q limit).1 =
        Except.ok (List.insertionSort simDescBy (dedupFold (store q limit))) := by
      simp [semanticSearch, hdim]
    refine ⟨_, hok, ?_⟩
    intro v hv
    obtain ⟨_, hmem, _⟩ := dedupFold_inv (store q limit)
    obtain ⟨r0, hr0, hveq, _⟩ :=
      hmem v ((List.perm_insertionSort simDescBy _).subset hv)
    exact ⟨r0, hr0, by rw [hveq]; rfl⟩
  · intro s h
    unfold excerptOf excerptChars normalizedTextOf
    rw [if_neg (not_lt.mpr h), List.append_nil, List.take_of_length_le h]
  · intro s h
    unfold excerptOf excerptChars
    rw [if_pos h]
  · intro s
    unfold excerptChars
    rw [List.length_append]
    have h1 : ((normalizedChars s).take 180).length ≤ 180 := by
      rw [List.length_take]
      omega
    have h2 : (if 180 < (normalizedChars s).length then ellipsisChars
        else []).length ≤ 3 := by
      split
      · decide
      · simp
    omega
  · intro s c hc hws
    obtain ⟨X, hX⟩ := normalizedChars_repr s
    rw [hX] at hc
    exact collapseWsAux_ws_only X false c (trimChars_subset _ hc) hws
  · intro s
    obtain ⟨X, hX⟩ := normalizedChars_repr s
    rw [hX]
    exact trimChars_chain (collapseWsAux_chain X false)

theorem semanticSearch_excerpt_spec_witness :
    ((List.replicate 384 (0 : ℚ)).length = EMBEDDING_DIMENSIONS) ∧
    ((∃ res, (semanticSearch (fun _ _ => []) (List.replicate 384 (0 : ℚ)) 10).1 =
        Except.ok res ∧
      ∀ v ∈ res, ∃ row ∈ ([] : List SSRow),
        v.excerpt = excerptOf row.rawMarkdown) ∧
    excerptOf "" = "" ∧
    (∀ s : String, (normalizedChars s).length ≤ 180 →
      excerptOf s = normalizedTextOf s) ∧
    (∀ s : String, 180 < (normalizedChars s).length →
      excerptOf s = String.mk ((normalizedChars s).take 180 ++ ellipsisChars)) ∧
    (∀ s : String, (excerptChars s).length ≤ 183) ∧
    (∀ s : String, ∀ c ∈ normalizedChars s, isJsWs c = true → c = ' ') ∧
    (∀ s : String, List.Chain' noDouble (normalizedChars s))) :=
  ⟨List.length_replicate 384 0,
   semanticSearch_excerpt_spec (fun _ _ => []) (List.replicate 384 (0 : ℚ)) 10
     (List.length_replicate 384 0)⟩

end AiBlog
